import Mathlib

/-!
Verification of the EC2 orchestration script `aws/ec2-download.py` of the
ea-lidar-download repository.  Strings are modelled as `List Char`; the
script's pure computations are translated directly, and its effectful parts
(remote commands, the file system, AWS calls) are modelled by explicit
environments and event traces.
-/

namespace EaLidar

/-- Python `str` truthiness / whitespace set: the characters stripped by
`str.strip()` (space, tab, newline, carriage return, vertical tab, form feed). -/
def pyIsSpace (c : Char) : Bool :=
  c = ' ' || c = '\t' || c = '\n' || c = '\r' || c = '\x0b' || c = '\x0c'

/-- Python `s.strip()`: drop leading and trailing whitespace. -/
def pyStrip (s : List Char) : List Char :=
  ((s.dropWhile pyIsSpace).reverse.dropWhile pyIsSpace).reverse

/-- Continuation of a digit run: digits with single separating underscores. -/
def pyDigitsTail : List Char → Bool
  | [] => true
  | '_' :: [] => false
  | '_' :: c :: rest => c.isDigit && pyDigitsTail rest
  | c :: rest => c.isDigit && pyDigitsTail rest

/-- Valid run of digits with single separating underscores, as Python's
`int()` accepts after the optional sign (ASCII digits only). -/
def pyDigitsOk : List Char → Bool
  | [] => false
  | c :: rest => c.isDigit && pyDigitsTail rest

/-- Numeric value of a digit string, ignoring underscores. -/
def digitsVal (ds : List Char) : Nat :=
  (ds.filter (· ≠ '_')).foldl (fun a c => 10 * a + (c.toNat - '0'.toNat)) 0

/-- Python `int(s)` on a string: strip whitespace, optional sign, digit run;
`none` models the `ValueError` raised on anything else. -/
def pyIntOfStr (s : List Char) : Option Int :=
  match pyStrip s with
  | '+' :: ds => if pyDigitsOk ds then some (digitsVal ds) else none
  | '-' :: ds => if pyDigitsOk ds then some (-(digitsVal ds : Int)) else none
  | ds => if pyDigitsOk ds then some (digitsVal ds) else none

/-! ## Job Monitor (`monitor_job`)

Each iteration of the streaming loop issues two remote commands whose raw
stdout we model as a `Poll`: `cat {status_file}` and
`wc -l {log_file} | awk '\x7b print $1 \x7d'`. -/

/-- One iteration's remote observations in `monitor_job`'s polling loop. -/
structure Poll where
  statusOut : List Char
  wcOut : List Char

/-- `int(stdout.read().decode().strip() or "0")` with `ValueError` mapped to
`0`, exactly as the `try`/`except ValueError` around `current_line_count`. -/
def parseLineCount (wcOut : List Char) : Int :=
  let s := pyStrip wcOut
  let s := if s.isEmpty then ['0'] else s
  match pyIntOfStr s with
  | some n => n
  | none => 0

/-- The delta-fetch command `tail -n +{start} {log} | head -n {cnt}` issued
for new log lines. -/
structure FetchCmd where
  start : Int
  cnt : Int
deriving DecidableEq, Repr

/-- One streaming poll: read the line count; when it grew, fetch exactly the
new lines (`tail -n +{last+1} | head -n {current-last}`) and advance
`last_line_count`. -/
def pollStep (last : Int) (p : Poll) : Int × Option FetchCmd :=
  let c := parseLineCount p.wcOut
  if last < c then (c, some ⟨last + 1, c - last⟩) else (last, none)

/-- What one run of `monitor_job`'s polling loop did, given the sequence of
remote observations: the returned flag (`none` when the loop never saw a
non-empty status marker and is still polling), the `tail -n +{start}`
argument of the terminal drain, the delta fetches issued, and the final
`last_line_count`. -/
structure MonitorTrace where
  result : Option Bool
  drainStart : Option Int
  fetches : List FetchCmd
  finalLast : Int

/-- The polling loop of `monitor_job`: check the status marker first; on a
non-empty (stripped) marker drain the remaining lines and return
`status == "SUCCESS"`; otherwise fetch the new log lines and poll again. -/
def monitor_job (polls : List Poll) (last : Int) : MonitorTrace :=
  match polls with
  | [] => ⟨none, none, [], last⟩
  | p :: rest =>
    let status := pyStrip p.statusOut
    if status ≠ [] then
      ⟨some (status = "SUCCESS".toList), some (last + 1), [], last⟩
    else
      match pollStep last p with
      | (last', none) => monitor_job rest last'
      | (last', some f) =>
        let t := monitor_job rest last'
        ⟨t.result, t.drainStart, f :: t.fetches, t.finalLast⟩

/-- The stripped status markers a poll sequence shows, in order. -/
def statusSeq (polls : List Poll) : List (List Char) :=
  polls.map fun p => pyStrip p.statusOut

theorem monitor_job_result (polls : List Poll) (last : Int) :
    (monitor_job polls last).result =
      ((statusSeq polls).find? (fun s => !s.isEmpty)).map
        (fun s => decide (s = "SUCCESS".toList)) := by
  induction polls generalizing last with
  | nil => rfl
  | cons p rest ih =>
    simp only [monitor_job, statusSeq, List.map_cons, List.find?_cons]
    by_cases h : pyStrip p.statusOut = []
    · simp only [h, ne_eq, not_true_eq_false, if_false, List.isEmpty_nil,
        Bool.not_true]
      cases hstep : pollStep last p with
      | mk last' f? =>
        cases f? with
        | none => simpa [statusSeq] using ih last'
        | some f => simpa [statusSeq] using ih last'
    · have hne : (pyStrip p.statusOut).isEmpty = false := by
        simpa [List.isEmpty_iff] using h
      simp [h, hne]

/-- The chain shape of the delta fetches: each fetch starts right after the
previous observed count and has positive length, and the final count is the
end of the last fetch. -/
def fetchChain : Int → List FetchCmd → Int → Prop
  | l, [], f => f = l
  | l, g :: gs, f => g.start = l + 1 ∧ 0 < g.cnt ∧ fetchChain (g.start + g.cnt - 1) gs f

theorem monitor_job_fetchChain (polls : List Poll) (last : Int) :
    fetchChain last (monitor_job polls last).fetches (monitor_job polls last).finalLast := by
  induction polls generalizing last with
  | nil => simp [monitor_job, fetchChain]
  | cons p rest ih =>
    simp only [monitor_job]
    by_cases h : pyStrip p.statusOut = []
    · simp only [h, ne_eq, not_true_eq_false, if_false, pollStep]
      by_cases hc : last < parseLineCount p.wcOut
      · simp only [hc, if_true, fetchChain]
        refine ⟨trivial, by omega, ?_⟩
        have heq : last + 1 + (parseLineCount p.wcOut - last) - 1 =
            parseLineCount p.wcOut := by omega
        rw [heq]
        exact ih _
      · simp only [hc, if_false]
        exact ih _
    · simp [h, fetchChain]

theorem fetchChain_le {l f : Int} {gs : List FetchCmd} (h : fetchChain l gs f) :
    l ≤ f := by
  induction gs generalizing l with
  | nil => simp [fetchChain] at h; omega
  | cons g gs ih =>
    obtain ⟨h1, h2, h3⟩ := h
    have := ih h3
    omega

theorem fetchChain_cover {l f : Int} {gs : List FetchCmd} (h : fetchChain l gs f)
    (n : Int) :
    (∃ g ∈ gs, g.start ≤ n ∧ n ≤ g.start + g.cnt - 1) ↔ (l < n ∧ n ≤ f) := by
  induction gs generalizing l with
  | nil =>
    simp only [fetchChain] at h
    simp [h]
  | cons g gs ih =>
    obtain ⟨h1, h2, h3⟩ := h
    have hcf : g.start + g.cnt - 1 ≤ f := fetchChain_le h3
    constructor
    · rintro ⟨g', hg', hlo, hhi⟩
      rcases List.mem_cons.mp hg' with rfl | hmem
      · omega
      · have := (ih h3).mp ⟨g', hmem, hlo, hhi⟩
        omega
    · rintro ⟨hln, hnf⟩
      by_cases hn : n ≤ g.start + g.cnt - 1
      · exact ⟨g, List.mem_cons_self g gs, by omega, hn⟩
      · obtain ⟨g', hmem, hlo, hhi⟩ := (ih h3).mpr ⟨by omega, hnf⟩
        exact ⟨g', List.mem_cons_of_mem g hmem, hlo, hhi⟩

theorem fetchChain_lt_start {l f : Int} {gs : List FetchCmd} (h : fetchChain l gs f) :
    ∀ g ∈ gs, l < g.start := by
  induction gs generalizing l with
  | nil => intro g hg; simp at hg
  | cons g0 gs ih =>
    obtain ⟨h1, h2, h3⟩ := h
    intro g hg
    rcases List.mem_cons.mp hg with rfl | hmem
    · omega
    · have := ih h3 g hmem
      omega

theorem fetchChain_pairwise {l f : Int} {gs : List FetchCmd} (h : fetchChain l gs f) :
    gs.Pairwise (fun a b => a.start + a.cnt - 1 < b.start) := by
  induction gs generalizing l with
  | nil => exact List.Pairwise.nil
  | cons g gs ih =>
    obtain ⟨h1, h2, h3⟩ := h
    exact List.Pairwise.cons (fun g' hg' => fetchChain_lt_start h3 g' hg') (ih h3)

theorem monitor_job_drainStart (polls : List Poll) (last : Int) :
    (monitor_job polls last).drainStart = none ∨
      (monitor_job polls last).drainStart = some ((monitor_job polls last).finalLast + 1) := by
  induction polls generalizing last with
  | nil => simp [monitor_job]
  | cons p rest ih =>
    simp only [monitor_job]
    by_cases h : pyStrip p.statusOut = []
    · simp only [h, ne_eq, not_true_eq_false, if_false, pollStep]
      by_cases hc : last < parseLineCount p.wcOut
      · simpa [hc] using ih (parseLineCount p.wcOut)
      · simpa [hc] using ih last
    · simp [h]

/-- C1.  The Job Monitor is a boolean oracle on the status marker: it
returns `true` exactly when the first non-empty (stripped) marker content it
observes is the token `SUCCESS`, `false` exactly when that first non-empty
content is anything else, and it returns nothing (keeps polling) while every
observed marker content is empty. -/
theorem monitor_returns_success_iff_marker (polls : List Poll) (last : Int) :
    ((monitor_job polls last).result = some true ↔
      (statusSeq polls).find? (fun s => !s.isEmpty) = some "SUCCESS".toList) ∧
    ((monitor_job polls last).result = some false ↔
      ∃ s, (statusSeq polls).find? (fun s => !s.isEmpty) = some s ∧
        s ≠ [] ∧ s ≠ "SUCCESS".toList) ∧
    ((monitor_job polls last).result = none ↔
      ∀ p ∈ polls, pyStrip p.statusOut = []) := by
  have h := monitor_job_result polls last
  cases hf : (statusSeq polls).find? (fun s => !s.isEmpty) with
  | none =>
    have hall := List.find?_eq_none.mp hf
    refine ⟨by simp [h, hf], by simp [h, hf], ?_⟩
    rw [h, hf]
    simp only [Option.map_none']
    constructor
    · intro _ p hp
      have hx := hall (pyStrip p.statusOut) (by
        simp only [statusSeq, List.mem_map]
        exact ⟨p, hp, rfl⟩)
      have : (pyStrip p.statusOut).isEmpty = true := by simpa using hx
      simpa [List.isEmpty_iff] using this
    · intro _
      trivial
  | some s =>
    have hs : ¬s.isEmpty := by
      have := List.find?_some hf
      simpa using this
    have hsne : s ≠ [] := by simpa [List.isEmpty_iff] using hs
    have hmem : s ∈ statusSeq polls := List.mem_of_find?_eq_some hf
    refine ⟨?_, ?_, ?_⟩
    · rw [h, hf]
      simp only [Option.map_some']
      constructor
      · intro hsome
        have hd : decide (s = "SUCCESS".toList) = true := by
          simpa using hsome
        exact congrArg some (of_decide_eq_true hd)
      · intro hsome
        have hss : s = "SUCCESS".toList := by simpa using hsome
        simp [hss]
    · rw [h, hf]
      simp only [Option.map_some']
      constructor
      · intro hsome
        have hdec : decide (s = "SUCCESS".toList) = false := by
          simpa using hsome
        exact ⟨s, rfl, hsne, of_decide_eq_false hdec⟩
      · rintro ⟨s', hs', _, hne⟩
        obtain rfl : s = s' := by simpa using hs'
        simp only [Option.some.injEq, decide_eq_false_iff_not]
        exact hne
    · rw [h, hf]
      simp only [Option.map_some']
      constructor
      · intro habs
        exact absurd habs (Option.some_ne_none _)
      · intro hall
        obtain ⟨p, hp, rfl⟩ := by
          simpa only [statusSeq, List.mem_map] using hmem
        exact absurd (hall p hp) hsne

/-- C4.  Over any sequence of observed remote line counts, starting from
count 0: the delta fetches form a chain (each starts at the previous count
plus one, has positive length, and ends at the new count), the fetched
ranges cover exactly the lines `1 .. finalLast` (no line skipped), the
ranges are pairwise disjoint (no line printed twice), and the terminal
drain — when the loop terminates — starts exactly after the last printed
count. -/
theorem monitor_fetch_ranges_partition (polls : List Poll) :
    fetchChain 0 (monitor_job polls 0).fetches (monitor_job polls 0).finalLast ∧
    (∀ n : Int,
      (∃ g ∈ (monitor_job polls 0).fetches,
          g.start ≤ n ∧ n ≤ g.start + g.cnt - 1) ↔
        0 < n ∧ n ≤ (monitor_job polls 0).finalLast) ∧
    (monitor_job polls 0).fetches.Pairwise
      (fun a b => a.start + a.cnt - 1 < b.start) ∧
    ((monitor_job polls 0).drainStart = none ∨
      (monitor_job polls 0).drainStart = some ((monitor_job polls 0).finalLast + 1)) :=
  ⟨monitor_job_fetchChain polls 0,
   fun n => fetchChain_cover (monitor_job_fetchChain polls 0) n,
   fetchChain_pairwise (monitor_job_fetchChain polls 0),
   monitor_job_drainStart polls 0⟩

/-- C10.  In the streaming loop, an empty or non-numeric line-count output is
treated as count 0 instead of raising: with a non-negative
`last_line_count`, such a poll fetches nothing and leaves the count
unchanged; and in general every delta fetch the loop issues has strictly
positive length. -/
theorem monitor_count_parse_total (wc st : List Char) (last : Int)
    (hlast : 0 ≤ last)
    (hbad : pyStrip wc = [] ∨ pyIntOfStr (pyStrip wc) = none) :
    parseLineCount wc = 0 ∧ pollStep last ⟨st, wc⟩ = (last, none) ∧
    (∀ (last' : Int) (p' : Poll) (f : FetchCmd),
      (pollStep last' p').2 = some f → 0 < f.cnt) := by
  have hzero : parseLineCount wc = 0 := by
    by_cases he : (pyStrip wc).isEmpty
    · have h0 : pyIntOfStr ['0'] = some 0 := by decide
      simp [parseLineCount, he, h0]
    · have h : pyIntOfStr (pyStrip wc) = none := by
        rcases hbad with h | h
        · exact absurd (by simp [h]) he
        · exact h
      simp [parseLineCount, he, h]
  refine ⟨hzero, ?_, ?_⟩
  · simp only [pollStep, hzero]
    rw [if_neg (by omega)]
  · intro last' p' f hf
    simp only [pollStep] at hf
    by_cases hc : last' < parseLineCount p'.wcOut
    · simp only [hc, if_true] at hf
      obtain rfl : (⟨last' + 1, parseLineCount p'.wcOut - last'⟩ : FetchCmd) = f := by
        simpa using hf
      simp only []
      omega
    · simp [hc] at hf

theorem monitor_count_parse_total_witness :
    parseLineCount "abc".toList = 0 ∧
      pollStep 3 ⟨[], "abc".toList⟩ = (3, none) :=
  ⟨(monitor_count_parse_total "abc".toList [] 3 (by decide) (Or.inr (by decide))).1,
   (monitor_count_parse_total "abc".toList [] 3 (by decide) (Or.inr (by decide))).2.1⟩

/-! ## Python exceptions and file-system paths -/

/-- The exception kinds the script raises or handles. -/
inductive PyErr where
  | valueError
  | clientError
  | runtimeError
deriving DecidableEq, Repr

/-- Split a path at its last `/`: (directory part including the slash, final
component).  Models `pathlib` name extraction, without normalization of
duplicate or trailing slashes. -/
def splitAtLastSlash : List Char → List Char × List Char
  | [] => ([], [])
  | c :: rest =>
    if '/' ∈ rest then
      ((splitAtLastSlash rest).1.cons c, (splitAtLastSlash rest).2)
    else if c = '/' then (['/'], rest)
    else ([], c :: rest)

/-- `pathlib` suffix of a final path component: the part from the last `.`
when that dot is neither the first nor the last character; empty otherwise. -/
def pySuffixOfName (name : List Char) : List Char :=
  match name.reverse.findIdx? (· = '.') with
  | none => []
  | some r =>
    let i := name.length - 1 - r
    if 0 < i ∧ i < name.length - 1 then name.drop i else []

/-- `Path(p).suffix`. -/
def pySuffix (p : List Char) : List Char :=
  pySuffixOfName (splitAtLastSlash p).2

/-- `Path(p).with_suffix(suf)`: strip the existing suffix of the final
component, then append `suf` (`suf = []` models `.with_suffix("")`). -/
def pyWithSuffix (p suf : List Char) : List Char :=
  let d := (splitAtLastSlash p).1
  let name := (splitAtLastSlash p).2
  let old := pySuffixOfName name
  d ++ name.take (name.length - old.length) ++ suf

theorem splitAtLastSlash_append (p : List Char) :
    (splitAtLastSlash p).1 ++ (splitAtLastSlash p).2 = p := by
  induction p with
  | nil => rfl
  | cons c rest ih =>
    simp only [splitAtLastSlash]
    by_cases h : '/' ∈ rest
    · simp [h, ih]
    · by_cases hc : c = '/'
      · simp [h, hc]
      · simp [h, hc]

/-- With no residual suffix on the base, `with_suffix` just appends. -/
theorem pyWithSuffix_of_no_suffix (b suf : List Char) (hb : pySuffix b = []) :
    pyWithSuffix b suf = b ++ suf := by
  simp only [pyWithSuffix, pySuffix] at *
  rw [hb, List.length_nil, Nat.sub_zero, List.take_length, List.append_assoc,
    ← List.append_assoc, splitAtLastSlash_append]

/-! ## Payload Stager (`upload_aoi_files`) -/

/-- The recognized sidecar extensions, in source order. -/
def shapefileExts : List (List Char) :=
  [".shp".toList, ".shx".toList, ".dbf".toList, ".prj".toList, ".cpg".toList,
   ".sbn".toList, ".sbx".toList]

/-- Observable actions of the Stager: SSH connection attempts and SFTP
transfers. -/
inductive StageEvent where
  | connectAttempt (k : Nat)
  | put (localFile remoteFile : List Char)
deriving DecidableEq, Repr

/-- `files_to_upload`: for each recognized extension,
`base_path.with_suffix(ext)` when that file exists on disk, where
`base_path = Path(local_aoi_path).with_suffix("")`. -/
def filesToUpload (fileExists : List Char → Bool) (local_aoi_path : List Char) :
    List (List Char) :=
  let base := pyWithSuffix local_aoi_path []
  (shapefileExts.map (fun ext => pyWithSuffix base ext)).filter fileExists

/-- The retry loop around `ssh.connect`: up to `n` more attempts starting at
attempt index `k`; returns whether a connection was established and the
attempts made. -/
def connectTrial (connectOk : Nat → Bool) (k : Nat) : Nat → Bool × List StageEvent
  | 0 => (false, [])
  | n + 1 =>
    if connectOk k then (true, [.connectAttempt k])
    else
      ((connectTrial connectOk (k + 1) n).1,
        .connectAttempt k :: (connectTrial connectOk (k + 1) n).2)

/-- `upload_aoi_files`: discover the sidecar bundle, raise `ValueError`
before any connection when it is empty, otherwise connect (≤ 10 attempts)
and SFTP each file to `remote_base.with_suffix(local_file.suffix)`. -/
def upload_aoi_files (fileExists : List Char → Bool) (connectOk : Nat → Bool)
    (local_aoi_path remote_path : List Char) :
    Except PyErr Unit × List StageEvent :=
  let files := filesToUpload fileExists local_aoi_path
  if files = [] then (.error .valueError, [])
  else
    match connectTrial connectOk 0 10 with
    | (false, evs) => (.error .runtimeError, evs)
    | (true, evs) =>
      let remote_base := pyWithSuffix remote_path []
      (.ok (),
        evs ++ files.map (fun f => .put f (pyWithSuffix remote_base (pySuffix f))))

/-- The local files transferred, in order. -/
def putsOf (evs : List StageEvent) : List (List Char) :=
  evs.filterMap fun e =>
    match e with
    | .put f _ => some f
    | _ => none

theorem putsOf_append (a b : List StageEvent) :
    putsOf (a ++ b) = putsOf a ++ putsOf b := by
  simp [putsOf, List.filterMap_append]

theorem putsOf_map_put (files : List (List Char)) (g : List Char → List Char) :
    putsOf (files.map fun f => .put f (g f)) = files := by
  induction files with
  | nil => rfl
  | cons f fs ih =>
    simp only [putsOf, List.map_cons, List.filterMap_cons] at *
    rw [ih]

theorem connectTrial_no_puts (connectOk : Nat → Bool) (k n : Nat) :
    putsOf (connectTrial connectOk k n).2 = [] := by
  induction n generalizing k with
  | zero => rfl
  | succ n ih =>
    simp only [connectTrial]
    by_cases h : connectOk k
    · simp [h, putsOf]
    · simp only [h, if_false, putsOf, List.filterMap_cons]
      exact ih (k + 1)

theorem connectTrial_succeeds (connectOk : Nat → Bool) (k n : Nat)
    (h : ∃ j, j < n ∧ connectOk (k + j)) :
    (connectTrial connectOk k n).1 = true := by
  induction n generalizing k with
  | zero => exact absurd h (by simp)
  | succ n ih =>
    simp only [connectTrial]
    by_cases hk : connectOk k
    · simp [hk]
    · simp only [hk, if_false]
      obtain ⟨j, hj, hok⟩ := h
      cases j with
      | zero => simp at hok; exact absurd hok hk
      | succ j =>
        refine ih (k + 1) ⟨j, by omega, ?_⟩
        have : k + 1 + j = k + (j + 1) := by omega
        rw [this]
        exact hok

/-- The set of sidecar files named by the claim: the input's base name with
each recognized extension appended, kept when present on disk.  (Stated from
the claim's words, to compare with what the code computes.) -/
def claimSidecarSet (fileExists : List Char → Bool) (local_aoi_path : List Char) :
    List (List Char) :=
  let base := pyWithSuffix local_aoi_path []
  (shapefileExts.map (fun ext => base ++ ext)).filter fileExists

/-- Disk contents for the counterexample: exactly the two files
`my.area.shp` and `my.area.shx` exist. -/
def dottedDisk : List Char → Bool := fun f =>
  f == "my.area.shp".toList || f == "my.area.shx".toList

/-- C5 counterexample.  For the input `my.area.shp` the files sharing the
base name `my.area` with recognized extensions exist (`my.area.shp`,
`my.area.shx`), yet the Stager raises `ValueError` and uploads nothing:
`with_suffix` replaces the residual `.area` suffix, so the code probes
`my.shp`, `my.shx`, … instead of the input's sidecars. -/
theorem upload_misses_dotted_base :
    claimSidecarSet dottedDisk "my.area.shp".toList ≠ [] ∧
    upload_aoi_files dottedDisk (fun _ => true) "my.area.shp".toList
        "/tmp/aoi.shp".toList =
      (.error .valueError, []) := by
  exact ⟨by decide, by rfl⟩

/-- C5 (amended).  For every input whose stripped base keeps no residual
dot-suffix, the Stager uploads exactly the files that share the base name,
carry one of the seven recognized extensions and exist on disk, and it
fails before attempting any connection exactly when that set is empty. -/
theorem upload_exact_sidecar_set (fileExists : List Char → Bool)
    (connectOk : Nat → Bool) (local_aoi_path remote_path : List Char)
    (hbase : pySuffix (pyWithSuffix local_aoi_path []) = []) :
    (filesToUpload fileExists local_aoi_path =
      claimSidecarSet fileExists local_aoi_path) ∧
    (upload_aoi_files fileExists connectOk local_aoi_path remote_path =
        (.error .valueError, []) ↔
      claimSidecarSet fileExists local_aoi_path = []) ∧
    ((∃ k, k < 10 ∧ connectOk k) →
      putsOf (upload_aoi_files fileExists connectOk local_aoi_path remote_path).2 =
        claimSidecarSet fileExists local_aoi_path) := by
  have hfiles : filesToUpload fileExists local_aoi_path =
      claimSidecarSet fileExists local_aoi_path := by
    simp only [filesToUpload, claimSidecarSet]
    congr 1
    exact List.map_congr_left fun ext _ => pyWithSuffix_of_no_suffix _ ext hbase
  refine ⟨hfiles, ?_, ?_⟩
  · rw [← hfiles]
    constructor
    · intro h
      by_contra hne
      simp only [upload_aoi_files, if_neg hne] at h
      cases htr : connectTrial connectOk 0 10 with
      | mk b evs =>
        cases b with
        | false => rw [htr] at h; exact absurd (congrArg Prod.fst h) (by simp)
        | true => rw [htr] at h; exact absurd (congrArg Prod.fst h) (by simp)
    · intro h
      simp [upload_aoi_files, h]
  · intro hconn
    rw [← hfiles]
    by_cases hne : filesToUpload fileExists local_aoi_path = []
    · simp [upload_aoi_files, hne, putsOf]
    · simp only [upload_aoi_files, if_neg hne]
      cases htr : connectTrial connectOk 0 10 with
      | mk b evs =>
        cases b with
        | false =>
          have := connectTrial_succeeds connectOk 0 10
            (by obtain ⟨k, hk, hok⟩ := hconn; exact ⟨k, hk, by simpa using hok⟩)
          rw [htr] at this
          simp at this
        | true =>
          have hnp := connectTrial_no_puts connectOk 0 10
          rw [htr] at hnp
          dsimp only
          rw [putsOf_append, hnp, List.nil_append, putsOf_map_put]

theorem upload_exact_sidecar_set_witness :
    (filesToUpload dottedDisk "my.area".toList =
      claimSidecarSet dottedDisk "my.area".toList) ∧
    (upload_aoi_files dottedDisk (fun _ => true) "my.area".toList
        "/tmp/aoi.shp".toList = (.error .valueError, []) ↔
      claimSidecarSet dottedDisk "my.area".toList = []) ∧
    ((∃ k, k < 10 ∧ (fun _ : Nat => true) k) →
      putsOf (upload_aoi_files dottedDisk (fun _ => true) "my.area".toList
          "/tmp/aoi.shp".toList).2 =
        claimSidecarSet dottedDisk "my.area".toList) :=
  upload_exact_sidecar_set dottedDisk (fun _ => true) "my.area".toList
    "/tmp/aoi.shp".toList (by decide)

/-! ## Credential provisioning (`ensure_key_pair`) -/

/-- Outcome of `describe_key_pairs(KeyNames=[key_name])`: the pair exists,
the call raises `ClientError` with code `InvalidKeyPair.NotFound`, or it
raises some other `ClientError`. -/
inductive DescribeKeyRes where
  | found
  | notFound
  | otherClientError
deriving DecidableEq, Repr

/-- The provider and file-system calls `ensure_key_pair` can make. -/
inductive KeyEvent where
  | describeKeyPairs
  | createKeyPair
  | mkdirParents
  | writeKeyFile
  | chmodKeyFile
deriving DecidableEq, Repr

/-- Which of those calls create or mutate remote provider state. -/
def KeyEvent.isRemoteMutation : KeyEvent → Bool
  | .createKeyPair => true
  | _ => false

/-- `Path(p).expanduser()`: substitute `~` or a leading `~/` with the home
directory (the `~user` form is left untouched, as is any other path). -/
def expanduser (home p : List Char) : List Char :=
  match p with
  | ['~'] => home
  | '~' :: '/' :: rest => home ++ '/' :: rest
  | _ => p

/-- `ensure_key_pair`: query the provider for the named pair; reuse the
local file when both exist, raise `ValueError` when the pair exists only
remotely, re-raise unexpected `ClientError`s, and only when the pair is
absent create it remotely and persist the material locally.  Returns the
key path and the trace of calls made. -/
def ensure_key_pair (aws : DescribeKeyRes) (localKeyFileExists : Bool)
    (home ssh_key_path : List Char) :
    Except PyErr (List Char) × List KeyEvent :=
  let expanded := expanduser home ssh_key_path
  match aws with
  | .found =>
    if localKeyFileExists then (.ok expanded, [.describeKeyPairs])
    else (.error .valueError, [.describeKeyPairs])
  | .otherClientError => (.error .clientError, [.describeKeyPairs])
  | .notFound =>
    (.ok expanded,
      [.describeKeyPairs, .createKeyPair, .mkdirParents, .writeKeyFile,
       .chmodKeyFile])

/-- C3.  Credential provisioning: when the pair exists remotely and the
local key file exists, no remote create/mutate call is issued and the
existing (expanded) local path is returned; when the pair exists remotely
but the local file is absent, the call fails and still creates no second
remote credential; and a remote credential is created exactly when the
provider reports the pair absent. -/
theorem ensure_key_pair_reuse_or_fail (home ssh_key_path : List Char) :
    (ensure_key_pair .found true home ssh_key_path =
      (.ok (expanduser home ssh_key_path), [.describeKeyPairs])) ∧
    ((ensure_key_pair .found true home ssh_key_path).2.filter
        KeyEvent.isRemoteMutation = []) ∧
    ((ensure_key_pair .found false home ssh_key_path).1 = .error .valueError) ∧
    ((ensure_key_pair .found false home ssh_key_path).2.filter
        KeyEvent.isRemoteMutation = []) ∧
    (∀ (aws : DescribeKeyRes) (localKeyFileExists : Bool),
      KeyEvent.createKeyPair ∈
          (ensure_key_pair aws localKeyFileExists home ssh_key_path).2 ↔
        aws = .notFound) := by
  refine ⟨rfl, rfl, rfl, rfl, ?_⟩
  intro aws localKeyFileExists
  cases aws with
  | found => cases localKeyFileExists <;> simp [ensure_key_pair]
  | notFound => simp [ensure_key_pair]
  | otherClientError => simp [ensure_key_pair]

/-! ## Key-file creation window (C9)

The create branch of `ensure_key_pair` runs, in order,
`expanded_path.parent.mkdir(parents=True, exist_ok=True)`,
`expanded_path.write_text(key_material)`, `expanded_path.chmod(0o600)`.
We model the local state of the key file (existence and permission bits)
through that sequence; `write_text` opens the file with mode `0o666`
masked by the process umask, per POSIX `open(2)`. -/

/-- Local state of the key file. -/
structure KeyFileState where
  fileExists : Bool
  mode : Nat
deriving DecidableEq, Repr

/-- The file-system operations of the create branch, in source order. -/
inductive FsOp where
  | mkdirParents
  | writeText
  | chmod (m : Nat)
deriving DecidableEq, Repr

/-- The create branch's operation sequence. -/
def createKeyFileOps : List FsOp := [.mkdirParents, .writeText, .chmod 0o600]

/-- Effect of one operation on the key-file state, for a given umask. -/
def applyFsOp (umask : Nat) (st : KeyFileState) : FsOp → KeyFileState
  | .mkdirParents => st
  | .writeText => ⟨true, 0o666 &&& (0o777 ^^^ umask)⟩
  | .chmod m => ⟨st.fileExists, m⟩

/-- All states the key file passes through during the create branch,
starting from a non-existent file. -/
def keyFileStates (umask : Nat) : List KeyFileState :=
  createKeyFileOps.scanl (applyFsOp umask) ⟨false, 0⟩

/-- C9 evaluation.  Under the common default umask `0o022`, the key file
exists with permission `0o644` — group- and world-readable — at the
intermediate point between `write_text` and `chmod`: the creation is not
all-or-nothing, contradicting the claim. -/
theorem key_file_world_readable_window :
    (⟨true, 0o644⟩ : KeyFileState) ∈ keyFileStates 0o022 ∧
    (0o644 : Nat) ≠ 0o600 ∧
    (keyFileStates 0o022).getLast? = some ⟨true, 0o600⟩ := by
  refine ⟨?_, by decide, by decide⟩
  decide

/-! ## Execution identity policy (`create_iam_role`) -/

/-- One statement of an IAM policy document. -/
structure PolicyStatement where
  effect : List Char
  actions : List (List Char)
  resources : List (List Char)

/-- `"arn:aws:s3:::"`. -/
def arnS3 : List Char := "arn:aws:s3:::".toList

/-- The inline `s3_policy` document of `create_iam_role`: Allow the four S3
actions on `arn:aws:s3:::{s3_bucket}/*` and `arn:aws:s3:::{s3_bucket}`. -/
def s3_policy (s3_bucket : List Char) : List PolicyStatement :=
  [⟨"Allow".toList,
    ["s3:PutObject".toList, "s3:PutObjectAcl".toList, "s3:GetObject".toList,
     "s3:ListBucket".toList],
    [arnS3 ++ s3_bucket ++ "/*".toList, arnS3 ++ s3_bucket]⟩]

/-- AWS resource matching for the patterns this policy emits: a single
trailing `*` matches any continuation; otherwise exact equality. -/
def resourceMatches (pat res : List Char) : Bool :=
  if pat.getLast? = some '*' then pat.dropLast.isPrefixOf res else pat == res

/-- Whether the document allows `action` on `res`. -/
def policyAllows (doc : List PolicyStatement) (action res : List Char) : Bool :=
  doc.any fun st =>
    st.effect == "Allow".toList && st.actions.any (· == action) &&
      st.resources.any (fun pat => resourceMatches pat res)

/-- ARN of a bucket. -/
def bucketArn (bucket : List Char) : List Char := arnS3 ++ bucket

/-- ARN of an object in a bucket. -/
def objectArn (bucket key : List Char) : List Char :=
  arnS3 ++ bucket ++ '/' :: key

/-- Python `s.split(sep)` for a one-character separator. -/
def pySplitOn (sep : Char) : List Char → List (List Char)
  | [] => [[]]
  | c :: rest =>
    match pySplitOn sep rest with
    | p :: ps => if c = sep then [] :: p :: ps else (c :: p) :: ps
    | [] => [[c]]

/-- `s3_bucket = args.s3_output.split("/")[2]` in `main`. -/
def s3BucketOf (s3_output : List Char) : List Char :=
  (pySplitOn '/' s3_output).getD 2 []

/-- Stated from the claim: whether bucket/key lies within the target output
location `s3://bucket/prefix` — same bucket and key under the prefix. -/
def withinOutputLocation (s3_output bucket key : List Char) : Bool :=
  let parts := pySplitOn '/' s3_output
  bucket == parts.getD 2 [] &&
    (List.intercalate ['/'] (parts.drop 3)).isPrefixOf key

/-- C8 counterexample.  With output location `s3://mybucket/myprefix`, the
inline document derived from the code grants `s3:PutObject` on the object
`other.txt` of `mybucket`, which is outside the `myprefix` output location:
the grant is scoped to the whole bucket, which is broader than the given
bucket/prefix. -/
theorem policy_grants_beyond_output_location :
    s3BucketOf "s3://mybucket/myprefix".toList = "mybucket".toList ∧
    policyAllows (s3_policy (s3BucketOf "s3://mybucket/myprefix".toList))
        "s3:PutObject".toList
        (objectArn "mybucket".toList "other.txt".toList) = true ∧
    withinOutputLocation "s3://mybucket/myprefix".toList "mybucket".toList
        "other.txt".toList = false := by
  refine ⟨by decide, by decide, by decide⟩

/-- C8 (amended).  The inline permission document is least-privilege to one
bucket, not one bucket/prefix: for a bucket name without `/` or `*`, it
allows exactly its four S3 actions, and exactly on the bucket itself or an
object of that bucket — nothing broader, but also the whole bucket even
when the output location carries a key prefix. -/
theorem policy_scoped_to_whole_bucket (bucket : List Char)
    (hstar : '*' ∉ bucket) (hne : bucket ≠ [])
    (action res : List Char) :
    policyAllows (s3_policy bucket) action res = true ↔
      (action ∈ ["s3:PutObject".toList, "s3:PutObjectAcl".toList,
          "s3:GetObject".toList, "s3:ListBucket".toList] ∧
        (res = bucketArn bucket ∨ ∃ key, res = objectArn bucket key)) := by
  have hpat1 : resourceMatches (arnS3 ++ bucket ++ "/*".toList) res = true ↔
      ∃ key, res = objectArn bucket key := by
    have hform : arnS3 ++ bucket ++ "/*".toList =
        (arnS3 ++ bucket ++ ['/']) ++ ['*'] := by
      simp [arnS3]
    rw [resourceMatches, hform]
    rw [if_pos (List.getLast?_concat _)]
    rw [List.dropLast_concat]
    rw [List.isPrefixOf_iff_prefix]
    constructor
    · rintro ⟨t, rfl⟩
      exact ⟨t, by simp [objectArn]⟩
    · rintro ⟨key, rfl⟩
      exact ⟨key, by simp [objectArn]⟩
  have hpat2 : resourceMatches (arnS3 ++ bucket) res = true ↔
      res = bucketArn bucket := by
    have hlast : (arnS3 ++ bucket).getLast? ≠ some '*' := by
      rw [List.getLast?_append]
      cases hb : bucket.getLast? with
      | none => exact absurd (List.getLast?_eq_none_iff.mp hb) hne
      | some c =>
        have hcmem : c ∈ bucket := List.mem_of_getLast?_eq_some hb
        have : c ≠ '*' := fun hcc => hstar (hcc ▸ hcmem)
        simp [hb, Option.or, this]
    rw [resourceMatches, if_neg hlast]
    rw [beq_iff_eq]
    exact ⟨fun h => h ▸ rfl, fun h => h ▸ rfl⟩
  have hunfold : policyAllows (s3_policy bucket) action res =
      ((["s3:PutObject".toList, "s3:PutObjectAcl".toList, "s3:GetObject".toList,
          "s3:ListBucket".toList].any (· == action)) &&
        ([arnS3 ++ bucket ++ "/*".toList, arnS3 ++ bucket].any
          (fun pat => resourceMatches pat res))) := by
    simp [policyAllows, s3_policy]
  rw [hunfold, Bool.and_eq_true, List.any_eq_true, List.any_eq_true]
  constructor
  · rintro ⟨⟨a, ha, hbeq⟩, ⟨pat, hpat, hmatch⟩⟩
    obtain rfl : a = action := by simpa using hbeq
    refine ⟨ha, ?_⟩
    rcases (by simpa using hpat :
        pat = arnS3 ++ bucket ++ "/*".toList ∨ pat = arnS3 ++ bucket) with rfl | rfl
    · exact Or.inr (hpat1.mp hmatch)
    · exact Or.inl (hpat2.mp hmatch)
  · rintro ⟨ha, hres⟩
    refine ⟨⟨action, ha, by simp⟩, ?_⟩
    rcases hres with rfl | ⟨key, rfl⟩
    · exact ⟨arnS3 ++ bucket, by simp, hpat2.mpr rfl⟩
    · exact ⟨arnS3 ++ bucket ++ "/*".toList, by simp, hpat1.mpr ⟨key, rfl⟩⟩

theorem policy_scoped_to_whole_bucket_witness :
    policyAllows (s3_policy "mybucket".toList) "s3:PutObject".toList
        (objectArn "mybucket".toList "lidar/out.tif".toList) = true ↔
      ("s3:PutObject".toList ∈ ["s3:PutObject".toList, "s3:PutObjectAcl".toList,
          "s3:GetObject".toList, "s3:ListBucket".toList] ∧
        (objectArn "mybucket".toList "lidar/out.tif".toList =
            bucketArn "mybucket".toList ∨
          ∃ key, objectArn "mybucket".toList "lidar/out.tif".toList =
            objectArn "mybucket".toList key)) :=
  policy_scoped_to_whole_bucket "mybucket".toList (by decide)
    (by decide) "s3:PutObject".toList
    (objectArn "mybucket".toList "lidar/out.tif".toList)

/-! ## Lifecycle Controller (`main`)

`ensure_key_pair` runs before the `try` block, so its exceptions are
uncaught (the Python runtime prints the traceback to stderr and exits with
code 1); every later phase runs inside `try ... except Exception`, whose
handler preserves any launched instance, re-queries its address, prints the
reconnection hint when an address is known, and exits 1. -/

/-- Outcomes of the fallible phases `main` sequences, as an environment:
each field is what the corresponding call would return or raise. -/
structure MainEnv where
  keyPair : Except PyErr (List Char)
  ami : Except PyErr (List Char)
  sg : Except PyErr (List Char)
  iam : Except PyErr (List Char)
  userData : Except PyErr (List Char)
  launch : Except PyErr (List Char)
  waitIp : Except PyErr (List Char)
  upload : Except PyErr Unit
  monitor : Except PyErr Bool
  terminate : Except PyErr Unit
  requeryIp : Option (List Char)
  isLocalAoi : Bool
  noTerminate : Bool

/-- The console/provider actions of `main` the claims talk about. -/
inductive MainEvent where
  | terminateInstance (id : List Char)
  | leftRunningNote (id : List Char)
  | connectHint (keyPath ip : List Char)
  | errorLine (caught : Bool)
deriving DecidableEq, Repr

/-- Does an event refer to the instance? -/
def MainEvent.mentionsInstance : MainEvent → Bool
  | .terminateInstance _ => true
  | .leftRunningNote _ => true
  | _ => false

/-- The `except Exception` handler of `main`: print the error; when an
instance was launched, note it is left running, re-query its public address
and print the reconnection hint when one is known; `sys.exit(1)`. -/
def exceptHandler (keyPath : List Char) (instanceId : Option (List Char))
    (requeryIp : Option (List Char)) : List MainEvent × Nat :=
  (.errorLine true ::
    (match instanceId with
     | none => []
     | some id =>
       .leftRunningNote id ::
         (match requeryIp with
          | none => []
          | some ip => [.connectHint keyPath ip])),
   1)

/-- `main` from the `ensure_key_pair` call on: the phase sequence of the
`try` block, the success branch (terminate unless `--no-terminate`, exit 0),
the failure branch (leave running, print the hint, `sys.exit(1)`), and the
broad `except` handler. -/
def main_run (env : MainEnv) : List MainEvent × Nat :=
  match env.keyPair with
  | .error _ => ([.errorLine false], 1)
  | .ok keyPath =>
    match env.ami with
    | .error _ => exceptHandler keyPath none env.requeryIp
    | .ok _ =>
      match env.sg with
      | .error _ => exceptHandler keyPath none env.requeryIp
      | .ok _ =>
        match env.iam with
        | .error _ => exceptHandler keyPath none env.requeryIp
        | .ok _ =>
          match env.userData with
          | .error _ => exceptHandler keyPath none env.requeryIp
          | .ok _ =>
            match env.launch with
            | .error _ => exceptHandler keyPath none env.requeryIp
            | .ok instId =>
              match env.waitIp with
              | .error _ => exceptHandler keyPath (some instId) env.requeryIp
              | .ok ip =>
                match (if env.isLocalAoi then env.upload else .ok ()) with
                | .error _ => exceptHandler keyPath (some instId) env.requeryIp
                | .ok _ =>
                  match env.monitor with
                  | .error _ => exceptHandler keyPath (some instId) env.requeryIp
                  | .ok success =>
                    if success then
                      if env.noTerminate then ([], 0)
                      else
                        match env.terminate with
                        | .ok _ => ([.terminateInstance instId], 0)
                        | .error _ =>
                          exceptHandler keyPath (some instId) env.requeryIp
                    else
                      ([.leftRunningNote instId, .connectHint keyPath ip], 1)

/-- C2.  After the Monitor resolves (all earlier phases succeeded): on
`true` the instance is terminated exactly when `--no-terminate` was not
given and the process exits 0; on `false` the instance is never terminated,
the reconnection hint carrying the instance's address and the credential
path is printed, and the process exits 1. -/
theorem main_disposition_after_monitor (env : MainEnv)
    (keyPath a b c d instId ip : List Char) (success : Bool)
    (hk : env.keyPair = .ok keyPath) (hami : env.ami = .ok a)
    (hsg : env.sg = .ok b) (hiam : env.iam = .ok c)
    (hud : env.userData = .ok d) (hl : env.launch = .ok instId)
    (hw : env.waitIp = .ok ip)
    (hup : (if env.isLocalAoi then env.upload else .ok ()) = .ok ())
    (hm : env.monitor = .ok success) (ht : env.terminate = .ok ()) :
    ((MainEvent.terminateInstance instId ∈ (main_run env).1) ↔
      (success = true ∧ env.noTerminate = false)) ∧
    (success = true → (main_run env).2 = 0) ∧
    (success = false →
      (main_run env).2 = 1 ∧
      (∀ id, MainEvent.terminateInstance id ∉ (main_run env).1) ∧
      MainEvent.connectHint keyPath ip ∈ (main_run env).1 ∧
      MainEvent.leftRunningNote instId ∈ (main_run env).1) := by
  have hrun : main_run env =
      (if success then
        (if env.noTerminate then ([], 0) else ([.terminateInstance instId], 0))
      else ([.leftRunningNote instId, .connectHint keyPath ip], 1)) := by
    simp only [main_run, hk, hami, hsg, hiam, hud, hl, hw, hup, hm, ht]
  rw [hrun]
  cases success with
  | true =>
    cases hnt : env.noTerminate with
    | true => simp
    | false => simp
  | false => simp

theorem main_disposition_after_monitor_witness :
    ((MainEvent.terminateInstance "i-1".toList ∈
        (main_run ⟨.ok "k".toList, .ok "a".toList, .ok "s".toList,
          .ok "r".toList, .ok "u".toList, .ok "i-1".toList, .ok "1.2.3.4".toList,
          .ok (), .ok false, .ok (), none, true, false⟩).1) ↔
      (false = true ∧ false = false)) ∧
    (false = true →
      (main_run ⟨.ok "k".toList, .ok "a".toList, .ok "s".toList,
        .ok "r".toList, .ok "u".toList, .ok "i-1".toList, .ok "1.2.3.4".toList,
        .ok (), .ok false, .ok (), none, true, false⟩).2 = 0) ∧
    (false = false →
      (main_run ⟨.ok "k".toList, .ok "a".toList, .ok "s".toList,
        .ok "r".toList, .ok "u".toList, .ok "i-1".toList, .ok "1.2.3.4".toList,
        .ok (), .ok false, .ok (), none, true, false⟩).2 = 1 ∧
      (∀ id, MainEvent.terminateInstance id ∉
        (main_run ⟨.ok "k".toList, .ok "a".toList, .ok "s".toList,
          .ok "r".toList, .ok "u".toList, .ok "i-1".toList, .ok "1.2.3.4".toList,
          .ok (), .ok false, .ok (), none, true, false⟩).1) ∧
      MainEvent.connectHint "k".toList "1.2.3.4".toList ∈
        (main_run ⟨.ok "k".toList, .ok "a".toList, .ok "s".toList,
          .ok "r".toList, .ok "u".toList, .ok "i-1".toList, .ok "1.2.3.4".toList,
          .ok (), .ok false, .ok (), none, true, false⟩).1 ∧
      MainEvent.leftRunningNote "i-1".toList ∈
        (main_run ⟨.ok "k".toList, .ok "a".toList, .ok "s".toList,
          .ok "r".toList, .ok "u".toList, .ok "i-1".toList, .ok "1.2.3.4".toList,
          .ok (), .ok false, .ok (), none, true, false⟩).1) :=
  main_disposition_after_monitor _ "k".toList "a".toList "s".toList "r".toList
    "u".toList "i-1".toList "1.2.3.4".toList false rfl rfl rfl rfl rfl rfl rfl
    rfl rfl rfl

/-- Whether the `try` block raises, and the instance id known at the point
of the raise (`some none`: a phase before launch raised; `some (some id)`:
a phase after a successful launch raised; `none`: no exception). -/
def tryFailureInstance (env : MainEnv) : Option (Option (List Char)) :=
  match env.ami with
  | .error _ => some none
  | .ok _ =>
    match env.sg with
    | .error _ => some none
    | .ok _ =>
      match env.iam with
      | .error _ => some none
      | .ok _ =>
        match env.userData with
        | .error _ => some none
        | .ok _ =>
          match env.launch with
          | .error _ => some none
          | .ok instId =>
            match env.waitIp with
            | .error _ => some (some instId)
            | .ok _ =>
              match (if env.isLocalAoi then env.upload else .ok ()) with
              | .error _ => some (some instId)
              | .ok _ =>
                match env.monitor with
                | .error _ => some (some instId)
                | .ok success =>
                  if success then
                    if env.noTerminate then none
                    else
                      match env.terminate with
                      | .ok _ => none
                      | .error _ => some (some instId)
                  else none

theorem exceptHandler_spec (keyPath : List Char) (instanceId : Option (List Char))
    (requeryIp : Option (List Char)) :
    (exceptHandler keyPath instanceId requeryIp).2 = 1 ∧
    (∀ id, MainEvent.terminateInstance id ∉
      (exceptHandler keyPath instanceId requeryIp).1) ∧
    MainEvent.errorLine true ∈ (exceptHandler keyPath instanceId requeryIp).1 ∧
    (match instanceId with
     | some id =>
       MainEvent.leftRunningNote id ∈
           (exceptHandler keyPath instanceId requeryIp).1 ∧
         (match requeryIp with
          | some ip =>
            MainEvent.connectHint keyPath ip ∈
              (exceptHandler keyPath instanceId requeryIp).1
          | none => True)
     | none =>
       ∀ ev ∈ (exceptHandler keyPath instanceId requeryIp).1,
         ev.mentionsInstance = false) := by
  cases instanceId <;> cases requeryIp <;>
    simp [exceptHandler, MainEvent.mentionsInstance]

/-- C7.  Exceptions: one raised by `ensure_key_pair` is uncaught — the
error is reported with no instance reference and the process exits 1; one
raised by any phase of the `try` block makes the process exit 1 with the
error reported and no instance ever terminated, and when an instance had
been launched it is noted as left running and the reconnection hint with
the re-queried address is printed whenever an address is known, while
before any instance exists no event refers to an instance. -/
theorem main_preserves_instance_on_exception (env : MainEnv)
    (keyPath : List Char) (instOpt : Option (List Char)) :
    (∀ e, env.keyPair = .error e →
      main_run env = ([.errorLine false], 1) ∧
      (∀ ev ∈ (main_run env).1, ev.mentionsInstance = false)) ∧
    (env.keyPair = .ok keyPath →
      tryFailureInstance env = some instOpt →
      (main_run env).2 = 1 ∧
      (∀ id, MainEvent.terminateInstance id ∉ (main_run env).1) ∧
      MainEvent.errorLine true ∈ (main_run env).1 ∧
      (match instOpt with
       | some id =>
         MainEvent.leftRunningNote id ∈ (main_run env).1 ∧
           (match env.requeryIp with
            | some ip => MainEvent.connectHint keyPath ip ∈ (main_run env).1
            | none => True)
       | none =>
         ∀ ev ∈ (main_run env).1, ev.mentionsInstance = false)) := by
  constructor
  · intro e he
    refine ⟨by simp [main_run, he], ?_⟩
    intro ev hev
    simp only [main_run, he] at hev
    simp only [List.mem_singleton] at hev
    simp [hev, MainEvent.mentionsInstance]
  · intro hk htry
    cases hami : env.ami with
    | error e =>
      simp only [tryFailureInstance, hami, Option.some.injEq] at htry
      subst htry
      simp only [main_run, hk, hami]
      exact exceptHandler_spec keyPath none env.requeryIp
    | ok a =>
    cases hsg : env.sg with
    | error e =>
      simp only [tryFailureInstance, hami, hsg, Option.some.injEq] at htry
      subst htry
      simp only [main_run, hk, hami, hsg]
      exact exceptHandler_spec keyPath none env.requeryIp
    | ok b =>
    cases hiam : env.iam with
    | error e =>
      simp only [tryFailureInstance, hami, hsg, hiam, Option.some.injEq] at htry
      subst htry
      simp only [main_run, hk, hami, hsg, hiam]
      exact exceptHandler_spec keyPath none env.requeryIp
    | ok c =>
    cases hud : env.userData with
    | error e =>
      simp only [tryFailureInstance, hami, hsg, hiam, hud, Option.some.injEq] at htry
      subst htry
      simp only [main_run, hk, hami, hsg, hiam, hud]
      exact exceptHandler_spec keyPath none env.requeryIp
    | ok d =>
    cases hl : env.launch with
    | error e =>
      simp only [tryFailureInstance, hami, hsg, hiam, hud, hl,
        Option.some.injEq] at htry
      subst htry
      simp only [main_run, hk, hami, hsg, hiam, hud, hl]
      exact exceptHandler_spec keyPath none env.requeryIp
    | ok instId =>
    cases hw : env.waitIp with
    | error e =>
      simp only [tryFailureInstance, hami, hsg, hiam, hud, hl, hw,
        Option.some.injEq] at htry
      subst htry
      simp only [main_run, hk, hami, hsg, hiam, hud, hl, hw]
      exact exceptHandler_spec keyPath (some instId) env.requeryIp
    | ok ip =>
    cases hup : (if env.isLocalAoi then env.upload else Except.ok ()) with
    | error e =>
      simp only [tryFailureInstance, hami, hsg, hiam, hud, hl, hw, hup,
        Option.some.injEq] at htry
      subst htry
      simp only [main_run, hk, hami, hsg, hiam, hud, hl, hw, hup]
      exact exceptHandler_spec keyPath (some instId) env.requeryIp
    | ok u =>
    cases hm : env.monitor with
    | error e =>
      simp only [tryFailureInstance, hami, hsg, hiam, hud, hl, hw, hup, hm,
        Option.some.injEq] at htry
      subst htry
      simp only [main_run, hk, hami, hsg, hiam, hud, hl, hw, hup, hm]
      exact exceptHandler_spec keyPath (some instId) env.requeryIp
    | ok success =>
      cases success with
      | false =>
        simp only [tryFailureInstance, hami, hsg, hiam, hud, hl, hw, hup, hm,
          if_false, Bool.false_eq_true] at htry
        exact Option.noConfusion htry
      | true =>
        cases hnt : env.noTerminate with
        | true =>
          simp only [tryFailureInstance, hami, hsg, hiam, hud, hl, hw, hup, hm,
            hnt, if_true] at htry
          exact Option.noConfusion htry
        | false =>
          cases hterm : env.terminate with
          | ok v =>
            simp only [tryFailureInstance, hami, hsg, hiam, hud, hl, hw, hup,
              hm, hnt, hterm, if_true, Bool.false_eq_true, if_false] at htry
            exact Option.noConfusion htry
          | error e =>
            simp only [tryFailureInstance, hami, hsg, hiam, hud, hl, hw, hup,
              hm, hnt, hterm, Option.some.injEq, if_true, Bool.false_eq_true,
              if_false] at htry
            subst htry
            simp only [main_run, hk, hami, hsg, hiam, hud, hl, hw, hup, hm,
              hnt, hterm, if_true, Bool.false_eq_true, if_false]
            exact exceptHandler_spec keyPath (some instId) env.requeryIp

/-! ## Boot payload rendering (`prepare_user_data`)

The template is read from `bootstrap.sh` and rendered by six successive
`str.replace` calls.  `replaceAll` models Python's `str.replace` for a
non-empty pattern: all non-overlapping occurrences are replaced left to
right, and replaced text is not rescanned. -/

/-- Fuel-bounded scan underlying `replaceAll`: every step consumes at least
one character, so `s.length` fuel always suffices. -/
def replaceAllB : Nat → List Char → List Char → List Char → List Char
  | 0, _, _, _ => []
  | fuel + 1, s, old, new =>
    match s with
    | [] => []
    | c :: rest =>
      if old ≠ [] ∧ old <+: (c :: rest) then
        new ++ replaceAllB fuel (List.drop old.length (c :: rest)) old new
      else
        c :: replaceAllB fuel rest old new

/-- Python `s.replace(old, new)` for non-empty `old` (every pattern
`prepare_user_data` passes is a fixed non-empty token): replace all
non-overlapping occurrences left to right, without rescanning. -/
def replaceAll (s old new : List Char) : List Char :=
  replaceAllB s.length s old new

theorem replaceAllB_congr :
    ∀ (fuel fuel' : Nat) (s old new : List Char),
      s.length ≤ fuel → s.length ≤ fuel' →
      replaceAllB fuel s old new = replaceAllB fuel' s old new := by
  intro fuel
  induction fuel with
  | zero =>
    intro fuel' s old new h1 _
    obtain rfl : s = [] := List.eq_nil_of_length_eq_zero (by omega)
    cases fuel' <;> rfl
  | succ fuel ih =>
    intro fuel' s old new h1 h2
    cases fuel' with
    | zero =>
      obtain rfl : s = [] := List.eq_nil_of_length_eq_zero (by omega)
      rfl
    | succ fuel' =>
      cases s with
      | nil => rfl
      | cons c rest =>
        simp only [replaceAllB]
        by_cases h : old ≠ [] ∧ old <+: (c :: rest)
        · rw [if_pos h, if_pos h]
          have hol : 0 < old.length := List.length_pos.mpr h.1
          have hd : (List.drop old.length (c :: rest)).length ≤ fuel := by
            simp only [List.length_drop, List.length_cons]
            simp only [List.length_cons] at h1
            omega
          have hd' : (List.drop old.length (c :: rest)).length ≤ fuel' := by
            simp only [List.length_drop, List.length_cons]
            simp only [List.length_cons] at h2
            omega
          rw [ih fuel' _ old new hd hd']
        · rw [if_neg h, if_neg h]
          have hr : rest.length ≤ fuel := by
            simp only [List.length_cons] at h1; omega
          have hr' : rest.length ≤ fuel' := by
            simp only [List.length_cons] at h2; omega
          rw [ih fuel' rest old new hr hr']

/-- `prepare_user_data`: substitute the six placeholders, in source order. -/
def prepare_user_data
    (template repo_url aoi_path products year resolution s3_output : List Char) :
    List Char :=
  let u1 := replaceAll template "\x7b\x7bREPO_URL\x7d\x7d".toList repo_url
  let u2 := replaceAll u1 "\x7b\x7bAOI_PATH\x7d\x7d".toList aoi_path
  let u3 := replaceAll u2 "\x7b\x7bPRODUCTS\x7d\x7d".toList products
  let u4 := replaceAll u3 "\x7b\x7bYEAR\x7d\x7d".toList year
  let u5 := replaceAll u4 "\x7b\x7bRESOLUTION\x7d\x7d".toList resolution
  replaceAll u5 "\x7b\x7bS3_OUTPUT\x7d\x7d".toList s3_output

/-- The six placeholder tokens, in the order the code substitutes them. -/
def phTokensList : List (List Char) :=
  ["\x7b\x7bREPO_URL\x7d\x7d".toList, "\x7b\x7bAOI_PATH\x7d\x7d".toList,
   "\x7b\x7bPRODUCTS\x7d\x7d".toList, "\x7b\x7bYEAR\x7d\x7d".toList,
   "\x7b\x7bRESOLUTION\x7d\x7d".toList, "\x7b\x7bS3_OUTPUT\x7d\x7d".toList]

/-- The placeholder token of index `i`. -/
def phTokens (i : Fin 6) : List Char :=
  phTokensList.get ⟨i.val, i.isLt⟩

/-- The six substitution values, indexed like `phTokens`. -/
def valsOf (repo_url aoi_path products year resolution s3_output : List Char) :
    Fin 6 → List Char := fun i =>
  [repo_url, aoi_path, products, year, resolution, s3_output].get ⟨i.val, i.isLt⟩

/-- The order in which `prepare_user_data` substitutes. -/
def codeOrder : List (Fin 6) := [0, 1, 2, 3, 4, 5]

/-- Sequential substitution following an arbitrary order of indices. -/
def renderSeq (t : List Char) (vals : Fin 6 → List Char)
    (order : List (Fin 6)) : List Char :=
  order.foldl (fun acc i => replaceAll acc (phTokens i) (vals i)) t

/-- A segment of a template: a literal run or one placeholder. -/
inductive Chunk where
  | lit (s : List Char)
  | ph (i : Fin 6)

/-- Text of a segment in the raw template. -/
def chunkStr : Chunk → List Char
  | .lit s => s
  | .ph i => phTokens i

/-- The raw template text of a segment list. -/
def joinChunks : List Chunk → List Char
  | [] => []
  | c :: cs => chunkStr c ++ joinChunks cs

/-- A string with no brace character at all. -/
def braceFree (s : List Char) : Prop :=
  ∀ c ∈ s, c ≠ '\x7b' ∧ c ≠ '\x7d'

/-- Well-formed segment: a literal is brace-free. -/
def chunkWF : Chunk → Prop
  | .lit s => braceFree s
  | .ph _ => True

instance (s : List Char) : Decidable (braceFree s) :=
  inferInstanceAs (Decidable (∀ c ∈ s, c ≠ '\x7b' ∧ c ≠ '\x7d'))

instance : (ch : Chunk) → Decidable (chunkWF ch)
  | .lit s => inferInstanceAs (Decidable (braceFree s))
  | .ph _ => inferInstanceAs (Decidable True)

/-- Substituting placeholder `i` by `v`, at the segment level. -/
def substChunk (i : Fin 6) (v : List Char) : Chunk → Chunk
  | .lit s => .lit s
  | .ph j => if j = i then .lit v else .ph j

/-- Substituting every placeholder by its value. -/
def fullSubst (vals : Fin 6 → List Char) : Chunk → Chunk
  | .lit s => .lit s
  | .ph j => .lit (vals j)

theorem replaceAll_nil (old new : List Char) : replaceAll [] old new = [] :=
  rfl

theorem replaceAll_pos {s old : List Char} (new : List Char) (hne : old ≠ [])
    (hpre : old <+: s) :
    replaceAll s old new = new ++ replaceAll (s.drop old.length) old new := by
  cases s with
  | nil =>
    rw [List.prefix_nil] at hpre
    exact absurd hpre hne
  | cons c rest =>
    have hstep : replaceAllB (rest.length + 1) (c :: rest) old new =
        (if old ≠ [] ∧ old <+: (c :: rest) then
          new ++ replaceAllB rest.length (List.drop old.length (c :: rest)) old new
        else c :: replaceAllB rest.length rest old new) := rfl
    have hcond : old ≠ [] ∧ old <+: (c :: rest) := ⟨hne, hpre⟩
    show replaceAllB (rest.length + 1) (c :: rest) old new = _
    rw [hstep, if_pos hcond]
    congr 1
    exact replaceAllB_congr rest.length _ _ old new
      (by
        have hol : 0 < old.length := List.length_pos.mpr hne
        simp only [List.length_drop, List.length_cons]
        omega)
      (Nat.le_refl _)

theorem replaceAll_neg {c : Char} {rest old : List Char} (new : List Char)
    (h : ¬(old ≠ [] ∧ old <+: (c :: rest))) :
    replaceAll (c :: rest) old new = c :: replaceAll rest old new := by
  have hstep : replaceAllB (rest.length + 1) (c :: rest) old new =
      (if old ≠ [] ∧ old <+: (c :: rest) then
        new ++ replaceAllB rest.length (List.drop old.length (c :: rest)) old new
      else c :: replaceAllB rest.length rest old new) := rfl
  show replaceAllB (rest.length + 1) (c :: rest) old new = _
  rw [hstep, if_neg h]
  rfl

/-- Occurrences of `old` cannot start inside `t`: replacement walks past
`t` unchanged. -/
theorem replaceAll_append_skip (t s old new : List Char) (hne : old ≠ [])
    (h : ∀ u, u ≠ [] → u <:+ t → ¬ old <+: (u ++ s)) :
    replaceAll (t ++ s) old new = t ++ replaceAll s old new := by
  induction t with
  | nil => simp
  | cons c t ih =>
    have hnp : ¬ old <+: (c :: (t ++ s)) := by
      have := h (c :: t) (by simp) (List.suffix_refl _)
      simpa using this
    rw [List.cons_append, replaceAll_neg new (fun hco => hnp hco.2)]
    rw [ih (fun u hu hsuf => h u hu (hsuf.trans (List.suffix_cons c t)))]
    rfl

theorem phTokens_ne_nil : ∀ i : Fin 6, phTokens i ≠ [] := by decide

theorem phTokens_head : ∀ i : Fin 6, phTokens i = '\x7b' :: (phTokens i).tail := by
  decide

theorem phTokens_no_overlap :
    ∀ i j : Fin 6, i ≠ j → ∀ p, p < (phTokens j).length →
      ¬ phTokens i <+: (phTokens j).drop p ∧
        ¬ (phTokens j).drop p <+: phTokens i := by
  decide

/-- A placeholder token never starts inside a brace-free run. -/
theorem braceFree_no_token_start (l s : List Char) (hl : braceFree l)
    (i : Fin 6) :
    ∀ u, u ≠ [] → u <:+ l → ¬ phTokens i <+: (u ++ s) := by
  intro u hu hsuf hpre
  obtain ⟨c, u', rfl⟩ := List.exists_cons_of_ne_nil hu
  have hcmem : c ∈ l := hsuf.subset (List.mem_cons_self c u')
  have hc : c ≠ '\x7b' := (hl c hcmem).1
  rw [phTokens_head i, List.cons_append, List.cons_prefix_cons] at hpre
  exact hc hpre.1.symm

theorem replaceAll_lit_skip (i : Fin 6) (l s new : List Char)
    (hl : braceFree l) :
    replaceAll (l ++ s) (phTokens i) new = l ++ replaceAll s (phTokens i) new :=
  replaceAll_append_skip l s _ new (phTokens_ne_nil i)
    (braceFree_no_token_start l s hl i)

/-- A placeholder token never starts strictly inside another token. -/
theorem replaceAll_token_skip (i j : Fin 6) (hij : i ≠ j) (s new : List Char) :
    replaceAll (phTokens j ++ s) (phTokens i) new =
      phTokens j ++ replaceAll s (phTokens i) new := by
  apply replaceAll_append_skip _ _ _ _ (phTokens_ne_nil i)
  intro u hu hsuf hpre
  obtain ⟨t, ht⟩ := hsuf
  have hp : t.length < (phTokens j).length := by
    have hlen := congrArg List.length ht
    simp only [List.length_append] at hlen
    have : 0 < u.length := List.length_pos.mpr hu
    omega
  have hdrop : (phTokens j).drop t.length = u := by
    rw [← ht, List.drop_left]
  have hover := phTokens_no_overlap i j hij t.length hp
  rw [hdrop] at hover
  rcases List.prefix_or_prefix_of_prefix hpre (List.prefix_append u s) with h1 | h1
  · exact hover.1 h1
  · exact hover.2 h1

/-- One `str.replace` pass over a well-formed template substitutes exactly
the occurrences of token `i`, segment-wise. -/
theorem replaceAll_joinChunks (i : Fin 6) (v : List Char) (cs : List Chunk)
    (hwf : ∀ ch ∈ cs, chunkWF ch) :
    replaceAll (joinChunks cs) (phTokens i) v =
      joinChunks (cs.map (substChunk i v)) := by
  induction cs with
  | nil => simp [joinChunks, replaceAll_nil]
  | cons ch cs ih =>
    have hwfc : chunkWF ch := hwf ch (List.mem_cons_self ch cs)
    have hwcs : ∀ c ∈ cs, chunkWF c := fun c hc => hwf c (List.mem_cons_of_mem ch hc)
    cases ch with
    | lit l =>
      simp only [joinChunks, chunkStr, List.map_cons, substChunk]
      rw [replaceAll_lit_skip i l _ v hwfc, ih hwcs]
    | ph j =>
      by_cases hj : j = i
      · subst hj
        simp only [joinChunks, chunkStr, List.map_cons, substChunk, if_pos rfl]
        rw [replaceAll_pos v (phTokens_ne_nil j) (List.prefix_append _ _)]
        rw [List.drop_left, ih hwcs]
        simp [chunkStr]
      · simp only [joinChunks, chunkStr, List.map_cons, substChunk, if_neg hj]
        rw [replaceAll_token_skip i j (fun hii => hj hii.symm) _ v, ih hwcs]

theorem wf_map_substChunk (i : Fin 6) (v : List Char) (cs : List Chunk)
    (hv : braceFree v) (hwf : ∀ ch ∈ cs, chunkWF ch) :
    ∀ ch ∈ cs.map (substChunk i v), chunkWF ch := by
  intro ch hch
  obtain ⟨c0, hc0, rfl⟩ := List.mem_map.mp hch
  cases c0 with
  | lit s => exact hwf _ hc0
  | ph j =>
    by_cases hj : j = i
    · simpa [substChunk, hj] using hv
    · simp [substChunk, hj, chunkWF]

/-- Sequential substitution over a well-formed template is segment-wise
substitution folded over the order. -/
theorem renderSeq_chunks (cs : List Chunk) (vals : Fin 6 → List Char)
    (order : List (Fin 6)) (hwf : ∀ ch ∈ cs, chunkWF ch)
    (hv : ∀ i, braceFree (vals i)) :
    renderSeq (joinChunks cs) vals order =
      joinChunks
        (order.foldl (fun acc i => acc.map (substChunk i (vals i))) cs) := by
  induction order generalizing cs with
  | nil => rfl
  | cons i order ih =>
    show renderSeq (replaceAll (joinChunks cs) (phTokens i) (vals i)) vals order =
      joinChunks (order.foldl _ (cs.map (substChunk i (vals i))))
    rw [replaceAll_joinChunks i (vals i) cs hwf]
    exact ih _ (wf_map_substChunk i (vals i) cs (hv i) hwf)

/-- Per-segment fold of the substitutions of an order. -/
def chunkFold (vals : Fin 6 → List Char) (order : List (Fin 6)) (ch : Chunk) :
    Chunk :=
  order.foldl (fun c i => substChunk i (vals i) c) ch

theorem foldl_map_subst (vals : Fin 6 → List Char) (order : List (Fin 6))
    (cs : List Chunk) :
    order.foldl (fun acc i => acc.map (substChunk i (vals i))) cs =
      cs.map (chunkFold vals order) := by
  induction order generalizing cs with
  | nil =>
    simp only [List.foldl_nil]
    exact (List.map_id'' (fun ch => rfl) cs).symm
  | cons i order ih =>
    simp only [List.foldl_cons]
    rw [ih, List.map_map]
    rfl

theorem chunkFold_lit (vals : Fin 6 → List Char) (order : List (Fin 6))
    (l : List Char) : chunkFold vals order (.lit l) = .lit l := by
  induction order with
  | nil => rfl
  | cons i order ih => simpa [chunkFold, substChunk] using ih

theorem chunkFold_ph (vals : Fin 6 → List Char) (order : List (Fin 6))
    (j : Fin 6) (hj : j ∈ order) :
    chunkFold vals order (.ph j) = .lit (vals j) := by
  induction order with
  | nil => simp at hj
  | cons i order ih =>
    by_cases hij : j = i
    · subst hij
      show chunkFold vals order (substChunk j (vals j) (.ph j)) = _
      simp only [substChunk, if_pos rfl]
      exact chunkFold_lit vals order _
    · show chunkFold vals order (substChunk i (vals i) (.ph j)) = _
      simp only [substChunk, if_neg hij]
      exact ih ((List.mem_cons.mp hj).resolve_left hij)

theorem chunkFold_complete (vals : Fin 6 → List Char) (order : List (Fin 6))
    (hall : ∀ i : Fin 6, i ∈ order) (ch : Chunk) :
    chunkFold vals order ch = fullSubst vals ch := by
  cases ch with
  | lit l => rw [chunkFold_lit]; rfl
  | ph j => rw [chunkFold_ph vals order j (hall j)]; rfl

/-- Any complete substitution order renders a well-formed template to the
full segment-wise substitution. -/
theorem renderSeq_complete (cs : List Chunk) (vals : Fin 6 → List Char)
    (order : List (Fin 6)) (hwf : ∀ ch ∈ cs, chunkWF ch)
    (hv : ∀ i, braceFree (vals i)) (hall : ∀ i : Fin 6, i ∈ order) :
    renderSeq (joinChunks cs) vals order =
      joinChunks (cs.map (fullSubst vals)) := by
  rw [renderSeq_chunks cs vals order hwf hv, foldl_map_subst]
  congr 1
  exact List.map_congr_left fun ch _ => chunkFold_complete vals order hall ch

theorem braceFree_append {a b : List Char} (ha : braceFree a)
    (hb : braceFree b) : braceFree (a ++ b) := by
  intro c hc
  rcases List.mem_append.mp hc with h | h
  · exact ha c h
  · exact hb c h

theorem fullSubst_braceFree (vals : Fin 6 → List Char) (cs : List Chunk)
    (hwf : ∀ ch ∈ cs, chunkWF ch) (hv : ∀ i, braceFree (vals i)) :
    braceFree (joinChunks (cs.map (fullSubst vals))) := by
  induction cs with
  | nil => intro c hc; simp [joinChunks] at hc
  | cons ch cs ih =>
    simp only [List.map_cons, joinChunks]
    refine braceFree_append ?_ (ih fun c hc => hwf c (List.mem_cons_of_mem ch hc))
    cases ch with
    | lit l => exact hwf _ (List.mem_cons_self _ _)
    | ph j => exact hv j

/-- A brace-free string holds no placeholder token. -/
theorem no_token_of_braceFree (s : List Char) (hs : braceFree s) (i : Fin 6) :
    ¬ phTokens i <:+: s := by
  intro hinf
  have hb : '\x7b' ∈ phTokens i := by
    rw [phTokens_head i]
    exact List.mem_cons_self _ _
  exact (hs _ (hinf.subset hb)).1 rfl

/-- Replacement is the identity on a brace-free string. -/
theorem replaceAll_braceFree_id (s : List Char) (hs : braceFree s) (i : Fin 6)
    (v : List Char) : replaceAll s (phTokens i) v = s := by
  have h := replaceAll_append_skip s [] (phTokens i) v (phTokens_ne_nil i)
    (fun u hu hsuf => by
      simpa using braceFree_no_token_start s [] hs i u hu hsuf)
  simpa [replaceAll_nil] using h

theorem renderSeq_braceFree_id (s : List Char) (hs : braceFree s)
    (vals : Fin 6 → List Char) (order : List (Fin 6)) :
    renderSeq s vals order = s := by
  induction order with
  | nil => rfl
  | cons i order ih =>
    show renderSeq (replaceAll s (phTokens i) (vals i)) vals order = s
    rw [replaceAll_braceFree_id s hs i (vals i)]
    exact ih

theorem prepare_user_data_eq_renderSeq
    (t repo_url aoi_path products year resolution s3_output : List Char) :
    prepare_user_data t repo_url aoi_path products year resolution s3_output =
      renderSeq t (valsOf repo_url aoi_path products year resolution s3_output)
        codeOrder := rfl

/-- C6 counterexample.  The claim fails for arbitrary templates: rendering
the template that interleaves one token inside another,
`((S3((S3_OUTPUT))_OUTPUT))` (with braces for parentheses), with six values
none of which contains any placeholder token (the S3 output value being
empty) leaves the token `((S3_OUTPUT))` in the output, so "no placeholder
token remains in the output" is violated, and substituting in any order
that puts S3_OUTPUT before REPO_URL gives a different result. -/
theorem prepare_user_data_stray_token :
    (∀ i j : Fin 6,
      ¬ phTokens j <:+:
        valsOf "r".toList "a".toList "p".toList "y".toList "z".toList [] i) ∧
    phTokens (5 : Fin 6) <:+:
      prepare_user_data
        "\x7b\x7bS3\x7b\x7bS3_OUTPUT\x7d\x7d_OUTPUT\x7d\x7d".toList
        "r".toList "a".toList "p".toList "y".toList "z".toList [] :=
  ⟨by decide, by decide⟩

/-- C6 (amended).  For every template that is a concatenation of
placeholder tokens and brace-free literal runs, and six brace-free
substitution values: rendering replaces each of the six placeholders at
every occurrence by its value (segment-wise full substitution), no
placeholder token remains in the output, rendering the output again is a
no-op, and every complete substitution order yields the same result as the
code's order.  (Brace-freeness is needed: values or adjacent literals
containing brace fragments can assemble new tokens mid-substitution, as the
counterexample shows for the template side.) -/
theorem prepare_user_data_renders_once (cs : List Chunk)
    (repo_url aoi_path products year resolution s3_output : List Char)
    (hwf : ∀ ch ∈ cs, chunkWF ch)
    (hv : ∀ i : Fin 6,
      braceFree (valsOf repo_url aoi_path products year resolution s3_output i)) :
    prepare_user_data (joinChunks cs) repo_url aoi_path products year
        resolution s3_output =
      joinChunks (cs.map (fullSubst
        (valsOf repo_url aoi_path products year resolution s3_output))) ∧
    (∀ i : Fin 6,
      ¬ phTokens i <:+:
        prepare_user_data (joinChunks cs) repo_url aoi_path products year
          resolution s3_output) ∧
    prepare_user_data
        (prepare_user_data (joinChunks cs) repo_url aoi_path products year
          resolution s3_output)
        repo_url aoi_path products year resolution s3_output =
      prepare_user_data (joinChunks cs) repo_url aoi_path products year
        resolution s3_output ∧
    (∀ order : List (Fin 6), (∀ i : Fin 6, i ∈ order) →
      renderSeq (joinChunks cs)
          (valsOf repo_url aoi_path products year resolution s3_output) order =
        prepare_user_data (joinChunks cs) repo_url aoi_path products year
          resolution s3_output) := by
  have hall : ∀ i : Fin 6, i ∈ codeOrder := by decide
  have hmain : ∀ order : List (Fin 6), (∀ i : Fin 6, i ∈ order) →
      renderSeq (joinChunks cs)
          (valsOf repo_url aoi_path products year resolution s3_output) order =
        joinChunks (cs.map (fullSubst
          (valsOf repo_url aoi_path products year resolution s3_output))) :=
    fun order hor => renderSeq_complete cs _ order hwf hv hor
  have hcode : prepare_user_data (joinChunks cs) repo_url aoi_path products
      year resolution s3_output =
      joinChunks (cs.map (fullSubst
        (valsOf repo_url aoi_path products year resolution s3_output))) := by
    rw [prepare_user_data_eq_renderSeq]
    exact hmain codeOrder hall
  have hbf : braceFree (joinChunks (cs.map (fullSubst
      (valsOf repo_url aoi_path products year resolution s3_output)))) :=
    fullSubst_braceFree _ cs hwf hv
  refine ⟨hcode, ?_, ?_, ?_⟩
  · intro i
    rw [hcode]
    exact no_token_of_braceFree _ hbf i
  · rw [hcode, prepare_user_data_eq_renderSeq]
    exact renderSeq_braceFree_id _ hbf _ _
  · intro order hor
    rw [hcode]
    exact hmain order hor

/-- Template segments used by the rendering witness. -/
def c6WitnessChunks : List Chunk :=
  [.lit "git clone ".toList, .ph (0 : Fin 6), .lit " && year=".toList,
   .ph (3 : Fin 6), .lit " out=".toList, .ph (5 : Fin 6)]

theorem prepare_user_data_renders_once_witness :
    prepare_user_data (joinChunks c6WitnessChunks) "repo".toList
        "/tmp/aoi.shp".toList "dtm".toList "2022".toList "1".toList
        "s3://out".toList =
      joinChunks (c6WitnessChunks.map (fullSubst
        (valsOf "repo".toList "/tmp/aoi.shp".toList "dtm".toList
          "2022".toList "1".toList "s3://out".toList))) ∧
    (∀ i : Fin 6,
      ¬ phTokens i <:+:
        prepare_user_data (joinChunks c6WitnessChunks) "repo".toList
          "/tmp/aoi.shp".toList "dtm".toList "2022".toList "1".toList
          "s3://out".toList) ∧
    prepare_user_data
        (prepare_user_data (joinChunks c6WitnessChunks) "repo".toList
          "/tmp/aoi.shp".toList "dtm".toList "2022".toList "1".toList
          "s3://out".toList)
        "repo".toList "/tmp/aoi.shp".toList "dtm".toList "2022".toList
        "1".toList "s3://out".toList =
      prepare_user_data (joinChunks c6WitnessChunks) "repo".toList
        "/tmp/aoi.shp".toList "dtm".toList "2022".toList "1".toList
        "s3://out".toList ∧
    (∀ order : List (Fin 6), (∀ i : Fin 6, i ∈ order) →
      renderSeq (joinChunks c6WitnessChunks)
          (valsOf "repo".toList "/tmp/aoi.shp".toList "dtm".toList
            "2022".toList "1".toList "s3://out".toList) order =
        prepare_user_data (joinChunks c6WitnessChunks) "repo".toList
          "/tmp/aoi.shp".toList "dtm".toList "2022".toList "1".toList
          "s3://out".toList) :=
  prepare_user_data_renders_once c6WitnessChunks "repo".toList
    "/tmp/aoi.shp".toList "dtm".toList "2022".toList "1".toList
    "s3://out".toList
    (by decide) (by decide)

end EaLidar
